import Mathlib

set_option maxRecDepth 20000

/-!
# Verification of the a21 display console and debouncer

A shallow embedding of `src/a21/display8.hpp` (the `Display8` page-display
driver and the `Display8Console` autoscroll console) and
`src/a21/debouncer.hpp` (the `Debouncer` class), together with theorems about
the embedded definitions.

Machine integers are modelled as `Nat` with explicit `% 2^w` reductions at
every point where the C++ code performs arithmetic on a fixed-width type and
the width can matter (`uint8_t` counters, `unsigned long` timestamps, the
`int8_t` row-index computation, the `(int)` cast in the debouncer).

The display geometry constants follow `Display8Constants` in the source:
`Pages = 8`, `Cols = 128`, so `MaxCols = Cols / 4 = 32` in the console.
-/

namespace A21

/-- `Pages` from `Display8Constants`: number of 8-pixel-high display pages. -/
def Pages : Nat := 8

/-- `Cols` from `Display8Constants`: number of pixel columns. -/
def Cols : Nat := 128

/-- `MaxCols = lcd::Cols / 4` from `Display8Console` (worst-case 4px glyph). -/
def MaxCols : Nat := Cols / 4

/-- Value of a byte reinterpreted as a C++ signed `char` (8-bit, two's
complement), as used by the comparison `ch >= ' '` in `_write`. -/
def signedVal (ch : Nat) : Int :=
  if ch % 256 < 128 then ((ch % 256 : Nat) : Int) else ((ch % 256 : Nat) : Int) - 256

/-- Wrap of an `Int` into `int8_t` (two's complement), as in the conversion
`int8_t row_index = _row - _filledRows + i` in `_draw`. -/
def int8ofInt (x : Int) : Int := (x + 128) % 256 - 128

/-- `2^32`: modulus of the Arduino `unsigned long` returned by `millis()`. -/
def UMAX : Nat := 4294967296

/-- Wrap of a `Nat` into a 32-bit signed `int` (two's complement), modelling
the `(int)` cast in `Debouncer::check` (`int` taken as 32-bit). -/
def toInt32 (n : Nat) : Int :=
  if n % UMAX < 2147483648 then ((n % UMAX : Nat) : Int)
  else ((n % UMAX : Nat) : Int) - (UMAX : Int)

/-- Unsigned 32-bit subtraction `millis() - _timestamp` (both `unsigned long`)
where `ts < UMAX` is the stored timestamp and `t` the current absolute time. -/
def elapsedU (ts t : Nat) : Nat := (UMAX + t % UMAX - ts) % UMAX

/-! ## Debouncer (`src/a21/debouncer.hpp`)

State of the `Debouncer` template.  The C++ constructor initializes only
`_value` and `_holding`; `_heldValue` and `_timestamp` are never read while
`_holding` is false, so the model gives them fixed dummy initial values.
The `fired` field is a ghost log of the `valueDidChange()` notifications
(the new debounced value at each firing), in order. -/
structure Deb where
  value : Bool
  holding : Bool
  held : Bool
  ts : Nat
  fired : List Bool
deriving DecidableEq

/-- `Debouncer()` constructor with template parameter `initial_value`. -/
def Deb.start (initial : Bool) : Deb :=
  { value := initial, holding := false, held := false, ts := 0, fired := [] }

/-- `Debouncer::setValue(bool value)` called at absolute time `t`
(`millis()` returns `t % UMAX`). -/
def Deb.setValue (t : Nat) (v : Bool) (s : Deb) : Deb :=
  if s.holding = false ∨ v ≠ s.held then
    { s with holding := true, held := v, ts := t % UMAX }
  else s

/-- `Debouncer::check()` called at absolute time `t`, with template parameter
`timeout` (= `timeout_ms`).  The guard is
`_holding && (int)(millis() - _timestamp) >= timeout_ms`. -/
def Deb.check (timeout t : Nat) (s : Deb) : Deb :=
  if s.holding = true ∧ (timeout : Int) ≤ toInt32 (elapsedU s.ts t) then
    { s with holding := false, value := s.held,
             fired := s.fired ++ (if s.held ≠ s.value then [s.held] else []) }
  else s

/-- Fold a list of `check` call times over a debouncer state. -/
def runChecks (timeout : Nat) (ts : List Nat) (s : Deb) : Deb :=
  ts.foldl (fun s t => Deb.check timeout t s) s

/-- A debouncer event: a raw sample (`setValue`) or a poll (`check`),
with its absolute time. -/
inductive DEv where
  | set (v : Bool) (t : Nat)
  | chk (t : Nat)
deriving DecidableEq

/-- One debouncer event step. -/
def debStep (timeout : Nat) (s : Deb) (e : DEv) : Deb :=
  match e with
  | .set v t => s.setValue t v
  | .chk t => s.check timeout t

/-- Run a list of debouncer events. -/
def runDeb (timeout : Nat) (es : List DEv) (s : Deb) : Deb :=
  es.foldl (debStep timeout) s

/-- Well-formedness of an event list relative to the time `u` and value `b` of
the most recent preceding `setValue` (if any): consecutive samples alternate
between the two boolean values and are less than `timeout` apart, and every
`check` occurs within `timeout` of the most recent preceding sample. -/
def debWF (timeout : Nat) : Option (Bool × Nat) → List DEv → Bool
  | _, [] => true
  | none, .set v t :: r => debWF timeout (some (v, t)) r
  | some (b, u), .set v t :: r =>
      (v ≠ b : Bool) && (u ≤ t : Bool) && (t - u < timeout : Bool) &&
        debWF timeout (some (v, t)) r
  | none, .chk _ :: r => debWF timeout none r
  | some (b, u), .chk t :: r =>
      (u ≤ t : Bool) && (t - u < timeout : Bool) && debWF timeout (some (b, u)) r

/-- Relation between the "most recent sample" bookkeeping of `debWF` and the
debouncer state. -/
def lastOk (last : Option (Bool × Nat)) (s : Deb) : Prop :=
  match last with
  | none => s.holding = false
  | some (b, u) => s.holding = true ∧ s.held = b ∧ s.ts = u % UMAX

/-! ## Display8 page loop (`src/a21/display8.hpp`, `fillPage`/`clearPage`)

The column loop `for (uint8_t c = start_col; c <= end_col; c++)` of both
`fillPage` and `clearPage`, modelled with explicit fuel because the C++ loop
does not terminate when `end_col = 255` (the 8-bit counter wraps).
`colLoop` returns the list of bytes written (`none` when the fuel runs out
before the loop exits); `src idx` is the byte written on iteration `idx`
(`*src++` for `fillPage`, the constant filler for `clearPage`). -/
def colLoop (fuel : Nat) (c end_col : Nat) (out : List Nat) (src : Nat → Nat)
    (idx : Nat) : Option (List Nat) :=
  match fuel with
  | 0 => none
  | f + 1 =>
      if c ≤ end_col then colLoop f ((c + 1) % 256) end_col (out ++ [src idx]) src (idx + 1)
      else some out

/-- `Display8::fillPage(start_col, end_col, page, data)`: the sequence of data
bytes streamed to the page, with `data` modelled as `Nat → Nat`. -/
def fillPageBytes (fuel start_col end_col : Nat) (data : Nat → Nat) : Option (List Nat) :=
  colLoop fuel (start_col % 256) end_col [] data 0

/-- `Display8::clearPage(start_col, end_col, page, filler)`: the sequence of
filler bytes streamed to the page. -/
def clearPageBytes (fuel start_col end_col filler : Nat) : Option (List Nat) :=
  colLoop fuel (start_col % 256) end_col [] (fun _ => filler) 0

/-! ## Autoscroll console (`Display8Console`)

The console state: `_buffer` is modelled as a total function
`row → slot → byte` (the C++ array `char _buffer[Pages][MaxCols+1]`; the
static singleton is zero-initialized before the constructor runs, so the
initial buffer is all zeros), together with the `uint8_t` counters and the
dirty flag. -/
structure Console where
  buf : Nat → Nat → Nat
  row : Nat
  col : Nat
  rowWidth : Nat
  filledRows : Nat
  dirty : Bool

/-- Initial console state: zero-initialized static storage, then the
constructor sets `_row = _col = _rowWidth = _filledRows = 0`. -/
def Console.start : Console :=
  { buf := fun _ _ => 0, row := 0, col := 0, rowWidth := 0, filledRows := 0,
    dirty := false }

/-- Single-cell buffer update `_buffer[r][c] = v`. -/
def bufWrite (f : Nat → Nat → Nat) (r c v : Nat) : Nat → Nat → Nat :=
  fun r1 c1 => if r1 = r ∧ c1 = c then v else f r1 c1

/-- `Display8Console::_lf()`: reset column and row width, advance the row
circularly, bump the filled-row counter with the `>= Pages` correction, and
terminate the new row.  All counter arithmetic is `uint8_t`. -/
def Console.lf (s : Console) : Console :=
  let row1 := if Pages ≤ (s.row + 1) % 256 then 0 else (s.row + 1) % 256
  let f1 := (s.filledRows + 1) % 256
  let fil1 := if Pages ≤ f1 then f1 - 1 else f1
  { s with col := 0, rowWidth := 0, row := row1, filledRows := fil1,
           buf := bufWrite s.buf row1 0 0 }

/-- `Display8Console::cr()`: reset column and row width only. -/
def Console.cr (s : Console) : Console :=
  { s with col := 0, rowWidth := 0 }

/-- `Display8Console::_clear()`: reset all counters, terminate every row at
slot 0, and mark dirty (no hardware redraw). -/
def Console.clear (s : Console) : Console :=
  { s with row := 0, filledRows := 0, col := 0, rowWidth := 0,
           buf := fun r c => if r < Pages ∧ c = 0 then 0 else s.buf r c,
           dirty := true }

/-- The append step of `_write` for a printable character of glyph width
`width`: store the byte, advance the column, terminate, update the row
width. -/
def Console.appendChar (s : Console) (ch width : Nat) : Console :=
  { s with
    buf := bufWrite (bufWrite s.buf s.row s.col (ch % 256))
             s.row ((s.col + 1) % 256) 0,
    col := (s.col + 1) % 256,
    rowWidth := (s.rowWidth + width + 1) % 256,
    dirty := true }

/-- `Display8Console::_write(char ch)`, printable branch dispatch.  `gw ch`
models `Font8::dataForCharacter(font::data(), ch, NULL)`, the glyph pixel
width of the byte `ch` (a `uint8_t`, hence the `% 256`).  The printability
test `ch >= ' '` compares signed `char` values. -/
def Console.write (gw : Nat → Nat) (ch : Nat) (s : Console) : Console :=
  if 32 ≤ signedVal ch then
    let width := gw ch % 256
    let s1 := if MaxCols ≤ s.col ∨ Cols ≤ s.rowWidth + width then s.lf else s
    s1.appendChar ch width
  else if ch % 256 = 10 then { s.lf with dirty := true }
  else if ch % 256 = 13 then { s.cr with dirty := true }
  else { s with dirty := true }

/-- Read a C string from a row buffer: up to `fuel` characters starting at
slot `k`, stopping at the first zero byte.  (In every reachable state the
terminator lies within the `MaxCols + 1` slots, so fuel `MaxCols + 1`
reproduces the unbounded C read.) -/
def readRow (f : Nat → Nat) : Nat → Nat → List Nat
  | _, 0 => []
  | k, fuel + 1 => if f k = 0 then [] else f k :: readRow f (k + 1) fuel

/-- The text of row `r`: the null-terminated contents of `_buffer[r]`. -/
def Console.rowText (s : Console) (r : Nat) : List Nat :=
  readRow (s.buf r) 0 (MaxCols + 1)

/-- The buffer row index displayed on physical page `i` in `_draw`:
`int8_t row_index = _row - _filledRows + i; if (row_index < 0) row_index += Pages`. -/
def Console.drawIndex (s : Console) (i : Nat) : Int :=
  let ri := int8ofInt ((s.row : Int) - (s.filledRows : Int) + (i : Int))
  if ri < 0 then ri + (Pages : Int) else ri

/-! ## Display and fonts, for `_draw`

The display memory is a function `page → column → byte`.  Font data is
external to the repository (`font8.hpp` is not under `src/`), so it is
modelled from the spec: a font maps a character to a glyph byte sequence of
`gw ch` columns ("fixed bitmap tables mapping characters to column-width byte
sequences"), and text rendering draws glyph by glyph, each glyph followed by
one blank spacing column (the "width + 1px gap" of the spec), returning the
total pixel width consumed. -/
def Disp : Type := Nat → Nat → Nat

/-- A font: glyph pixel width per character and glyph column bytes. -/
structure Font where
  gw : Nat → Nat
  glyph : Nat → Nat → Nat

/-- Write one byte to the display at `(page, c)`. -/
def dispWrite (d : Disp) (page c v : Nat) : Disp :=
  fun p1 c1 => if p1 = page ∧ c1 = c then v else d p1 c1

/-- Draw one glyph (its `w` column bytes, then one blank spacing column) at
column `c` of `page`. -/
def drawGlyph (f : Font) (page ch c : Nat) (d : Disp) : Disp :=
  let w := f.gw ch % 256
  dispWrite ((List.range w).foldl (fun d j => dispWrite d page (c + j) (f.glyph ch j)) d)
    page (c + w) 0

/-- Modelled from the spec: `Font8::draw` body of `Display8::drawText` —
render a character sequence glyph by glyph from column `c` of `page`,
returning the updated display and the column after the text (the total pixel
width consumed when started at column 0). -/
def drawGlyphs (f : Font) (page : Nat) : List Nat → Nat → Disp → Disp × Nat
  | [], c, d => (d, c)
  | ch :: rest, c, d =>
      drawGlyphs f page rest (c + f.gw ch % 256 + 1) (drawGlyph f page ch c d)

/-- `lcd::drawText(font::data(), 0, i, text)` as used by `_draw`: returns the
display after rendering and the `uint8_t` pixel width consumed. -/
def drawText (f : Font) (page : Nat) (text : List Nat) (d : Disp) : Disp × Nat :=
  let r := drawGlyphs f page text 0 d
  (r.1, r.2 % 256)

/-- Blanking write of `fillPage(a, b, page)` as invoked by `_draw` (three
arguments, so the filler byte is the default blank `0` of `clearPage`):
writes `0` to every column in `[a, b]`.  This is the terminating behavior of
the `uint8_t` column loop, faithful whenever `b < 255` (in every reachable
state `b = Cols - w` with `w ≤ 128`, so `b ≤ 128`). -/
def blankRange (page a b : Nat) (d : Disp) : Disp :=
  fun p1 c1 => if p1 = page ∧ a ≤ c1 ∧ c1 ≤ b then 0 else d p1 c1

/-- `Display8Console::_draw()`: when dirty, render each of the `Pages`
physical pages from the circular row buffer and blank from the text width `w`
to column `Cols - w` (the `lcd::fillPage(width, lcd::Cols - width, i)` call;
`Cols - width` is `int` arithmetic converted to `uint8_t`). -/
def Console.draw (f : Font) (s : Console) (d : Disp) : Console × Disp :=
  if s.dirty = false then (s, d)
  else
    ({ s with dirty := false },
      (List.range Pages).foldl (fun d i =>
        let r := drawText f i (s.rowText (s.drawIndex i).toNat) d
        blankRange i r.2 ((Cols + 256 - r.2) % 256) r.1) d)

/-- A console operation: `write(ch)`, `clear()`, or `draw()` (only the
console-state effect of `draw`, namely clearing the dirty flag). -/
inductive Op where
  | wr (ch : Nat)
  | cl
  | dr
deriving DecidableEq

/-- One console operation step (console state only). -/
def Console.step (gw : Nat → Nat) (s : Console) : Op → Console
  | .wr ch => s.write gw ch
  | .cl => s.clear
  | .dr => { s with dirty := false }

/-- Run a list of console operations from the initial state. -/
def Console.run (gw : Nat → Nat) (ops : List Op) : Console :=
  ops.foldl (Console.step gw) Console.start

/-- Run a write-only character sequence from the initial state. -/
def Console.runW (gw : Nat → Nat) (cs : List Nat) : Console :=
  cs.foldl (fun s ch => s.write gw ch) Console.start

/-- One system operation step: console state plus display memory
(`draw` flushes to the display). -/
def sysStep (f : Font) (p : Console × Disp) : Op → Console × Disp
  | .wr ch => (p.1.write f.gw ch, p.2)
  | .cl => (p.1.clear, p.2)
  | .dr => p.1.draw f p.2

/-- Run system operations from the initial console and an all-blank display. -/
def sysRun (f : Font) (ops : List Op) : Console × Disp :=
  ops.foldl (sysStep f) (Console.start, fun _ _ => 0)

/-! ## Ghost row history, for the autoscroll property

A pure re-formulation of the console's text content: the list of logical rows
ever written (`prevRows`, oldest first) plus the current row `cur` with its
cursor `c` and accumulated pixel width `w`.  It mirrors `_write`/`_lf`/`cr`
exactly on the text level. -/
structure Ghost where
  prevRows : List (List Nat)
  cur : List Nat
  c : Nat
  w : Nat

/-- Initial ghost: one empty logical row. -/
def Ghost.start : Ghost := { prevRows := [], cur := [], c := 0, w := 0 }

/-- All logical rows, oldest first, current row last. -/
def Ghost.hist (g : Ghost) : List (List Nat) := g.prevRows ++ [g.cur]

/-- Ghost line feed: close the current row and open an empty one. -/
def Ghost.lf (g : Ghost) : Ghost :=
  { prevRows := g.prevRows ++ [g.cur], cur := [], c := 0, w := 0 }

/-- Ghost mirror of the printable append step. -/
def Ghost.app (g : Ghost) (ch width : Nat) : Ghost :=
  { prevRows := g.prevRows, cur := g.cur.take g.c ++ [ch % 256],
    c := g.c + 1, w := (g.w + width + 1) % 256 }

/-- Ghost mirror of `_write`. -/
def Ghost.wr (gw : Nat → Nat) (g : Ghost) (ch : Nat) : Ghost :=
  if 32 ≤ signedVal ch then
    let width := gw ch % 256
    let g1 := if MaxCols ≤ g.c ∨ Cols ≤ g.w + width then g.lf else g
    g1.app ch width
  else if ch % 256 = 10 then g.lf
  else if ch % 256 = 13 then { g with c := 0, w := 0 }
  else g

/-- Run the ghost over a write-only character sequence. -/
def Ghost.run (gw : Nat → Nat) (cs : List Nat) : Ghost :=
  cs.foldl (Ghost.wr gw) Ghost.start

/-- Number of line feeds performed by a write-only character sequence
(each line feed, explicit or automatic, closes one logical row). -/
def numLf (gw : Nat → Nat) (cs : List Nat) : Nat :=
  (Ghost.run gw cs).prevRows.length

/-! ## Concrete instances and invariants used by the theorems -/

/-- A concrete uniform glyph-width table: every character is 3 px wide. -/
def gw3 : Nat → Nat := fun _ => 3

/-- A concrete font: every glyph is 3 px wide with all column bytes `255`. -/
def fontA : Font := { gw := fun _ => 3, glyph := fun _ _ => 255 }

/-- Operation sequence exhibiting the `_draw` blanking bug: draw a 31-character
row (124 px wide), then overwrite it after a carriage return with a
2-character row (8 px wide) and draw again. -/
def opsC1 : List Op :=
  Op.cl :: (List.replicate 31 (Op.wr 65) ++ [Op.dr, Op.wr 13, Op.wr 66, Op.wr 66, Op.dr])

/-- The console state invariant of claim C9. -/
def Inv9 (s : Console) : Prop :=
  s.row < Pages ∧ s.col ≤ MaxCols ∧ s.row ≤ s.filledRows ∧
    s.filledRows ≤ Pages - 1 ∧ ∀ r, r < Pages → ∃ k, k ≤ MaxCols ∧ s.buf r k = 0

/-- The buffer row holding the logical row `j` steps before the current one
(`j = 0` is the current row). -/
def winIdx (s : Console) (j : Nat) : Nat := (s.row + Pages - j) % Pages

/-- Buffer row `r` holds exactly the text `t`: the first `t.length` slots are
the (nonzero) characters of `t` and slot `t.length` is the terminator. -/
def rowOk (s : Console) (r : Nat) (t : List Nat) : Prop :=
  t.length ≤ MaxCols ∧
    (∀ k, k < t.length → s.buf r k = t.getD k 0 ∧ t.getD k 0 ≠ 0) ∧
    s.buf r t.length = 0

/-- Simulation invariant between the console and the ghost row history, for
write-only runs: the counters agree, and the last `filledRows + 1` logical
rows sit in the circular buffer (current row at `winIdx 0`, older rows
behind it), with all remaining buffer rows empty. -/
structure HistInv (s : Console) (g : Ghost) : Prop where
  hrow : s.row = (g.hist.length - 1) % Pages
  hfil : s.filledRows = min (g.hist.length - 1) (Pages - 1)
  hcol : s.col = g.c
  hwid : s.rowWidth = g.w
  hcur : g.c ≤ g.cur.length
  hwin : ∀ j, j ≤ s.filledRows → rowOk s (winIdx s j) (g.hist.reverse.getD j [])
  hemp : ∀ j, s.filledRows < j → j < Pages → s.buf (winIdx s j) 0 = 0

end A21

namespace A21

/-- C8: when holding, a repeated identical sample changes no state at all
(drives the condition `!_holding || value != _heldValue` false). -/
theorem setValue_coalesces (s : Deb) (t : Nat) (v : Bool)
    (hhold : s.holding = true) (hv : v = s.held) :
    s.setValue t v = s := by
  simp [Deb.setValue, hhold, hv]

/-- Witness for C8 at a concrete holding state. -/
theorem setValue_coalesces_witness :
    (Deb.mk false true true 5 []).holding = true ∧
      (Deb.mk false true true 5 []).setValue 9 true = Deb.mk false true true 5 [] := by
  exact ⟨rfl, setValue_coalesces (Deb.mk false true true 5 []) 9 true rfl rfl⟩

/-- The `(int)`-cast elapsed-time computation recovers the true elapsed time
whenever it is below `2^31`. -/
theorem toInt32_elapsed (t0 t : Nat) (h1 : t0 ≤ t) (h2 : t - t0 < 2147483648) :
    toInt32 (elapsedU (t0 % UMAX) t) = ((t - t0 : Nat) : Int) := by
  simp only [toInt32, elapsedU, UMAX]
  split <;> omega

/-- A `check` whose elapsed time is below the timeout leaves the state
unchanged. -/
theorem check_below_timeout (timeout t0 t : Nat) (s : Deb)
    (hts : s.ts = t0 % UMAX) (h1 : t0 ≤ t) (h2 : t - t0 < 2147483648)
    (h3 : t - t0 < timeout) :
    Deb.check timeout t s = s := by
  unfold Deb.check
  rw [hts, toInt32_elapsed t0 t h1 h2]
  have : ¬ ((timeout : Int) ≤ ((t - t0 : Nat) : Int)) := by
    rw [Int.ofNat_le]
    omega
  simp [this]

/-- A `check` while not holding leaves the state unchanged. -/
theorem check_not_holding (timeout t : Nat) (s : Deb) (h : s.holding = false) :
    Deb.check timeout t s = s := by
  simp [Deb.check, h]

/-- `runChecks` over an appended list of call times. -/
theorem runChecks_append (timeout : Nat) (p q : List Nat) (s : Deb) :
    runChecks timeout (p ++ q) s = runChecks timeout q (runChecks timeout p s) := by
  simp [runChecks, List.foldl_append]

/-- `runChecks` over a cons of call times. -/
theorem runChecks_cons (timeout t : Nat) (q : List Nat) (s : Deb) :
    runChecks timeout (t :: q) s = runChecks timeout q (Deb.check timeout t s) := rfl

/-- A sequence of `check` calls while not holding leaves the state
unchanged. -/
theorem runChecks_not_holding (timeout : Nat) (ts : List Nat) (s : Deb)
    (h : s.holding = false) :
    runChecks timeout ts s = s := by
  induction ts with
  | nil => rfl
  | cons t r ih =>
      show runChecks timeout r (Deb.check timeout t s) = s
      rw [check_not_holding timeout t s h, ih]

/-- A sequence of `check` calls all below the timeout leaves a holding state
unchanged. -/
theorem runChecks_below_timeout (timeout t0 : Nat) (ts : List Nat) (s : Deb)
    (hts : s.ts = t0 % UMAX)
    (hb : ∀ t ∈ ts, t0 ≤ t ∧ t - t0 < 2147483648)
    (hlt : ∀ t ∈ ts, t - t0 < timeout) :
    runChecks timeout ts s = s := by
  induction ts with
  | nil => rfl
  | cons t r ih =>
      show runChecks timeout r (Deb.check timeout t s) = s
      rw [check_below_timeout timeout t0 t s hts (hb t (by simp)).1
            (hb t (by simp)).2 (hlt t (by simp))]
      exact ih (fun u hu => hb u (by simp [hu])) (fun u hu => hlt u (by simp [hu]))

/-- C5 (amended): after a single raw change `setValue new` at `t0` from the
settled state with stable value `old ≠ new`, provided every subsequent
`check` happens at an elapsed time below `2^31` ms: the debounced value stays
`old` through every `check` whose elapsed time is below `timeout`, and the
first `check` at elapsed time `≥ timeout` commits `new` and fires the change
notification exactly once; if no check reaches the timeout, nothing changes. -/
theorem debounce_single_change (timeout t0 : Nat) (old nv : Bool) (ts : List Nat)
    (hne : nv ≠ old)
    (hb : ∀ t ∈ ts, t0 ≤ t ∧ t - t0 < 2147483648) :
    ((∀ t ∈ ts, t - t0 < timeout) →
        runChecks timeout ts (Deb.setValue t0 nv (Deb.start old)) =
          Deb.setValue t0 nv (Deb.start old) ∧
        (runChecks timeout ts (Deb.setValue t0 nv (Deb.start old))).value = old) ∧
    (∀ p t q, ts = p ++ t :: q → (∀ u ∈ p, u - t0 < timeout) → timeout ≤ t - t0 →
        (runChecks timeout p (Deb.setValue t0 nv (Deb.start old))).value = old ∧
        (runChecks timeout ts (Deb.setValue t0 nv (Deb.start old))).value = nv ∧
        (runChecks timeout ts (Deb.setValue t0 nv (Deb.start old))).fired = [nv]) := by
  have hs1 : Deb.setValue t0 nv (Deb.start old) =
      { value := old, holding := true, held := nv, ts := t0 % UMAX, fired := [] } := by
    simp [Deb.setValue, Deb.start]
  constructor
  · intro hlt
    have := runChecks_below_timeout timeout t0 ts
      (Deb.setValue t0 nv (Deb.start old)) (by rw [hs1]) hb hlt
    rw [this, hs1]
    exact ⟨rfl, rfl⟩
  · intro p t q hsplit hp htimeout
    have hbp : ∀ u ∈ p, t0 ≤ u ∧ u - t0 < 2147483648 := by
      intro u hu
      exact hb u (by rw [hsplit]; exact List.mem_append_left _ hu)
    have hrunp : runChecks timeout p (Deb.setValue t0 nv (Deb.start old)) =
        Deb.setValue t0 nv (Deb.start old) :=
      runChecks_below_timeout timeout t0 p _ (by rw [hs1]) hbp hp
    have hbt : t0 ≤ t ∧ t - t0 < 2147483648 := by
      refine hb t ?_
      rw [hsplit]
      exact List.mem_append_right _ (by simp)
    have hcommit : Deb.check timeout t (Deb.setValue t0 nv (Deb.start old)) =
        { value := nv, holding := false, held := nv, ts := t0 % UMAX, fired := [nv] } := by
      rw [hs1]
      unfold Deb.check
      have he : toInt32 (elapsedU (t0 % UMAX) t) = ((t - t0 : Nat) : Int) :=
        toInt32_elapsed t0 t hbt.1 hbt.2
      simp only [he]
      have hc : (timeout : Int) ≤ ((t - t0 : Nat) : Int) := by
        rw [Int.ofNat_le]
        exact htimeout
      simp [hc, hne]
    have hrun : runChecks timeout ts (Deb.setValue t0 nv (Deb.start old)) =
        { value := nv, holding := false, held := nv, ts := t0 % UMAX, fired := [nv] } := by
      rw [hsplit, runChecks_append, hrunp, runChecks_cons, hcommit]
      exact runChecks_not_holding timeout q _ rfl
    rw [hrunp, hrun, hs1]
    exact ⟨rfl, rfl, rfl⟩

/-- Witness for C5 (amended) at the spec's example: `timeout_ms = 10`, initial
value `false`, `setValue(true)` at `t = 0`, `check()` at `t = 5` (no change)
and at `t = 11` (value becomes `true`, hook fires exactly once). -/
theorem debounce_single_change_witness :
    (runChecks 10 [5] (Deb.setValue 0 true (Deb.start false))).value = false ∧
      (runChecks 10 [5, 11] (Deb.setValue 0 true (Deb.start false))).value = true ∧
      (runChecks 10 [5, 11] (Deb.setValue 0 true (Deb.start false))).fired = [true] :=
  (debounce_single_change 10 0 false true [5, 11] (by decide)
      (by decide)).2 [5] 11 [] rfl (by decide) (by decide)

/-- Counterexample for C1-claimed C5 as literally stated: a `check` whose
elapsed time since the change is `2^32 ≥ timeout` does not commit the held
value, because the wrapped elapsed-time computation yields `0`.  The stable
value remains the old one and no notification fires. -/
theorem debounce_wraparound_cex :
    10 ≤ 4294967296 - 0 ∧
      (Deb.check 10 4294967296 (Deb.setValue 0 true (Deb.start false))).value = false ∧
      (Deb.check 10 4294967296 (Deb.setValue 0 true (Deb.start false))).fired = [] := by
  decide

/-- Under `debWF`, running the events changes neither the debounced value nor
the notification log, and the holding bookkeeping tracks the last sample. -/
theorem runDeb_wf (timeout : Nat) (htm : timeout ≤ 2147483648) :
    ∀ (es : List DEv) (last : Option (Bool × Nat)) (s : Deb),
      debWF timeout last es = true → lastOk last s →
      (runDeb timeout es s).value = s.value ∧ (runDeb timeout es s).fired = s.fired := by
  intro es
  induction es with
  | nil => intro last s _ _; exact ⟨rfl, rfl⟩
  | cons e r ih =>
      intro last s hwf hok
      match e with
      | .set v t =>
          have hupd : s.setValue t v =
              { s with holding := true, held := v, ts := t % UMAX } := by
            match last with
            | none =>
                have hh : s.holding = false := hok
                simp [Deb.setValue, hh]
            | some (b, u) =>
                obtain ⟨hh, hheld, hts⟩ := hok
                have hne : v ≠ b := by
                  simp only [debWF, Bool.and_eq_true, decide_eq_true_eq] at hwf
                  exact hwf.1.1.1
                simp [Deb.setValue, hheld, hne]
          have hwf' : debWF timeout (some (v, t)) r = true := by
            match last with
            | none => exact hwf
            | some (b, u) =>
                simp only [debWF, Bool.and_eq_true] at hwf
                exact hwf.2
          show (runDeb timeout r (s.setValue t v)).value = s.value ∧
            (runDeb timeout r (s.setValue t v)).fired = s.fired
          rw [hupd]
          exact ih (some (v, t))
            { s with holding := true, held := v, ts := t % UMAX } hwf' ⟨rfl, rfl, rfl⟩
      | .chk t =>
          have hskip : Deb.check timeout t s = s := by
            match last with
            | none => exact check_not_holding timeout t s hok
            | some (b, u) =>
                obtain ⟨hh, hheld, hts⟩ := hok
                have hbits : u ≤ t ∧ t - u < timeout := by
                  simp only [debWF, Bool.and_eq_true, decide_eq_true_eq] at hwf
                  exact ⟨hwf.1.1, hwf.1.2⟩
                exact check_below_timeout timeout u t s hts hbits.1
                  (by omega) hbits.2
          have hwf' : debWF timeout last r = true := by
            match last with
            | none => exact hwf
            | some (b, u) =>
                simp only [debWF, Bool.and_eq_true] at hwf
                exact hwf.2
          show (runDeb timeout r (Deb.check timeout t s)).value = s.value ∧
            (runDeb timeout r (Deb.check timeout t s)).fired = s.fired
          rw [hskip]
          exact ih last s hwf' hok

/-- `debWF` restricted to a prefix of the event list. -/
theorem debWF_prefix (timeout : Nat) :
    ∀ (p q : List DEv) (last : Option (Bool × Nat)),
      debWF timeout last (p ++ q) = true → debWF timeout last p = true := by
  intro p
  induction p with
  | nil =>
      intro q last _
      rcases last with _ | ⟨b, u⟩ <;> rfl
  | cons e r ih =>
      intro q last hwf
      match e, last with
      | .set v t, none => exact ih q (some (v, t)) hwf
      | .set v t, some (b, u) =>
          simp only [debWF, Bool.and_eq_true] at hwf ⊢
          exact ⟨hwf.1, ih q (some (v, t)) hwf.2⟩
      | .chk t, none => exact ih q none hwf
      | .chk t, some (b, u) =>
          simp only [debWF, Bool.and_eq_true] at hwf ⊢
          exact ⟨hwf.1, ih q (some (b, u)) hwf.2⟩

/-- C6 (amended): for every interleaving of `setValue` and `check` calls in
which consecutive samples alternate between the two boolean values with less
than `timeout_ms` between consecutive samples, and in which every `check`
occurs within `timeout_ms` of the most recent preceding sample, the debounced
value never changes (at any prefix of the interleaving) and the change
notification never fires. -/
theorem debounce_rapid_alternation (timeout : Nat) (v0 : Bool) (es : List DEv)
    (htm : timeout ≤ 2147483648) (hwf : debWF timeout none es = true) :
    ∀ p q, es = p ++ q →
      (runDeb timeout p (Deb.start v0)).value = v0 ∧
      (runDeb timeout p (Deb.start v0)).fired = [] := by
  intro p q hsplit
  have hwfp : debWF timeout none p = true :=
    debWF_prefix timeout p q none (by rw [← hsplit]; exact hwf)
  exact runDeb_wf timeout htm p none (Deb.start v0) hwfp rfl

/-- Witness for C6 (amended) at a concrete rapid alternation with interleaved
checks. -/
theorem debounce_rapid_alternation_witness :
    debWF 10 none
        [DEv.set true 0, DEv.chk 3, DEv.set false 5, DEv.chk 9,
          DEv.set true 9, DEv.chk 12] = true ∧
      (runDeb 10
          [DEv.set true 0, DEv.chk 3, DEv.set false 5, DEv.chk 9,
            DEv.set true 9, DEv.chk 12] (Deb.start false)).value = false ∧
      (runDeb 10
          [DEv.set true 0, DEv.chk 3, DEv.set false 5, DEv.chk 9,
            DEv.set true 9, DEv.chk 12] (Deb.start false)).fired = [] := by
  refine ⟨by decide, ?_⟩
  exact debounce_rapid_alternation 10 false
    [DEv.set true 0, DEv.chk 3, DEv.set false 5, DEv.chk 9,
      DEv.set true 9, DEv.chk 12] (by decide) (by decide) _ [] rfl

/-- Counterexample for C6 as literally stated: the samples
`true@0, false@5, true@9` alternate with gaps `5` and `4`, both below the
timeout `10`, yet a trailing `check` at `t = 30` commits the held value:
the debounced value changes from `false` to `true` and the notification
fires. -/
theorem debounce_rapid_alternation_cex :
    ((true ≠ false) ∧ (false ≠ true) ∧ 5 - 0 < 10 ∧ 9 - 5 < 10) ∧
      (runDeb 10 [DEv.set true 0, DEv.set false 5, DEv.set true 9, DEv.chk 30]
          (Deb.start false)).value = true ∧
      (runDeb 10 [DEv.set true 0, DEv.set false 5, DEv.set true 9, DEv.chk 30]
          (Deb.start false)).fired = [true] := by
  decide

/-- The page loop exits immediately when the counter is past `end_col`. -/
theorem colLoop_exit (f c e : Nat) (out : List Nat) (src : Nat → Nat) (idx : Nat)
    (h : e < c) : colLoop (f + 1) c e out src idx = some out := by
  simp [colLoop, Nat.not_le.2 h]

/-- The page loop with `end_col < 255` terminates with one byte per column. -/
theorem colLoop_runs (e : Nat) (src : Nat → Nat) (he : e < 255) :
    ∀ fuel c out idx, c ≤ e → e + 2 - c ≤ fuel →
      ∃ l, colLoop fuel c e out src idx = some l ∧ l.length = out.length + (e + 1 - c) := by
  intro fuel
  induction fuel with
  | zero => intro c out idx hc hf; omega
  | succ f ih =>
      intro c out idx hc hf
      have hc1 : (c + 1) % 256 = c + 1 := Nat.mod_eq_of_lt (by omega)
      rcases Nat.lt_or_ge c e with hlt | hge
      · have ⟨l, hl, hlen⟩ := ih (c + 1) (out ++ [src idx]) (idx + 1)
          (by omega) (by omega)
        refine ⟨l, ?_, by simp at hlen; omega⟩
        simp only [colLoop, if_pos hc, hc1]
        exact hl
      · have hce : c = e := by omega
        have hf1 : ∃ f1, f = f1 + 1 := by
          refine ⟨f - 1, ?_⟩
          omega
        obtain ⟨f1, rfl⟩ := hf1
        refine ⟨out ++ [src idx], ?_, by simp; omega⟩
        simp only [colLoop, if_pos hc, hc1]
        exact colLoop_exit f1 (c + 1) e _ src _ (by omega)

/-- The page loop with `end_col = 255` never exits: the `uint8_t` counter can
never exceed `255`. -/
theorem colLoop_wraps (src : Nat → Nat) :
    ∀ fuel c out idx, c ≤ 255 → colLoop fuel c 255 out src idx = none := by
  intro fuel
  induction fuel with
  | zero => intro c out idx _; rfl
  | succ f ih =>
      intro c out idx hc
      simp only [colLoop, if_pos hc]
      exact ih ((c + 1) % 256) _ _ (Nat.le_of_lt_succ (Nat.mod_lt _ (by omega)))

/-- C10: for every `start_col` and every `end_col < 255`, the column loops of
`fillPage` and `clearPage` terminate, streaming `end_col - start_col + 1`
bytes when `start_col ≤ end_col` and zero bytes when `start_col > end_col`;
for `end_col = 255` the 8-bit column counter wraps and the loop never
terminates. -/
theorem fillPage_clearPage_termination (start_col end_col : Nat)
    (data : Nat → Nat) (filler : Nat) (hs : start_col ≤ 255) :
    (end_col < 255 →
      ∃ l1 l2, fillPageBytes 257 start_col end_col data = some l1 ∧
        clearPageBytes 257 start_col end_col filler = some l2 ∧
        l1.length = (if start_col ≤ end_col then end_col - start_col + 1 else 0) ∧
        l2.length = (if start_col ≤ end_col then end_col - start_col + 1 else 0)) ∧
    (end_col = 255 → ∀ fuel,
      fillPageBytes fuel start_col end_col data = none ∧
      clearPageBytes fuel start_col end_col filler = none) := by
  have hsm : start_col % 256 = start_col := Nat.mod_eq_of_lt (by omega)
  constructor
  · intro he
    rcases le_or_lt start_col end_col with hle | hgt
    · have ⟨l1, hl1, hlen1⟩ := colLoop_runs end_col data he 257 start_col [] 0 hle (by omega)
      have ⟨l2, hl2, hlen2⟩ :=
        colLoop_runs end_col (fun _ => filler) he 257 start_col [] 0 hle (by omega)
      refine ⟨l1, l2, ?_, ?_, ?_, ?_⟩
      · simpa [fillPageBytes, hsm] using hl1
      · simpa [clearPageBytes, hsm] using hl2
      · simp at hlen1
        rw [hlen1, if_pos hle]
        omega
      · simp at hlen2
        rw [hlen2, if_pos hle]
        omega
    · refine ⟨[], [], ?_, ?_, by simp [Nat.not_le.2 hgt], by simp [Nat.not_le.2 hgt]⟩
      · simpa [fillPageBytes, hsm] using colLoop_exit 256 start_col end_col [] data 0 hgt
      · simpa [clearPageBytes, hsm] using
          colLoop_exit 256 start_col end_col [] (fun _ => filler) 0 hgt
  · intro he fuel
    subst he
    exact ⟨by simpa [fillPageBytes, hsm] using colLoop_wraps data fuel start_col [] 0 hs,
      by simpa [clearPageBytes, hsm] using
        colLoop_wraps (fun _ => filler) fuel start_col [] 0 hs⟩

/-- Witness for C10 at `start_col = 3`, `end_col = 10`. -/
theorem fillPage_clearPage_termination_witness :
    (3 ≤ 255 ∧ (10 : Nat) < 255) ∧
      (∃ l1 l2, fillPageBytes 257 3 10 (fun i => i) = some l1 ∧
        clearPageBytes 257 3 10 7 = some l2 ∧
        l1.length = (if 3 ≤ 10 then 10 - 3 + 1 else 0) ∧
        l2.length = (if 3 ≤ 10 then 10 - 3 + 1 else 0)) :=
  ⟨by decide,
    (fillPage_clearPage_termination 3 10 (fun i => i) 7 (by decide)).1 (by decide)⟩

/-- The `uint8_t` row bump of `_lf` (`_row++` then wrap at `Pages`) equals
advancing modulo `Pages`. -/
theorem uint8_row_advance (r : Nat) (h : r < 8) :
    (if (8 : Nat) ≤ (r + 1) % 256 then 0 else (r + 1) % 256) = (r + 1) % 8 := by
  split <;> omega

/-- The `uint8_t` filled-row bump of `_lf` saturates at `Pages - 1`. -/
theorem uint8_fill_advance (fr : Nat) (h : fr ≤ 7) :
    (if (8 : Nat) ≤ (fr + 1) % 256 then (fr + 1) % 256 - 1 else (fr + 1) % 256) =
      min (fr + 1) 7 := by
  split <;> omega

/-- C4: a line feed resets the column and row width, advances the row index
circularly modulo `Pages`, saturates the filled-row counter at `Pages - 1`,
and terminates the new current row at slot 0. -/
theorem lf_spec (s : Console) (hrow : s.row < Pages) (hfil : s.filledRows ≤ Pages - 1) :
    s.lf.col = 0 ∧ s.lf.rowWidth = 0 ∧ s.lf.row = (s.row + 1) % Pages ∧
      s.lf.filledRows = min (s.filledRows + 1) (Pages - 1) ∧
      s.lf.filledRows ≤ Pages - 1 ∧ s.lf.buf ((s.row + 1) % Pages) 0 = 0 := by
  have hrow8 : s.row < 8 := by simpa [Pages] using hrow
  have hfil7 : s.filledRows ≤ 7 := by simpa [Pages] using hfil
  refine ⟨rfl, rfl, ?_, ?_, ?_, ?_⟩
  · show (if Pages ≤ (s.row + 1) % 256 then 0 else (s.row + 1) % 256) = (s.row + 1) % Pages
    simp only [Pages]
    exact uint8_row_advance s.row hrow8
  · show (if Pages ≤ (s.filledRows + 1) % 256 then (s.filledRows + 1) % 256 - 1
      else (s.filledRows + 1) % 256) = min (s.filledRows + 1) (Pages - 1)
    simp only [Pages]
    exact uint8_fill_advance s.filledRows hfil7
  · show (if Pages ≤ (s.filledRows + 1) % 256 then (s.filledRows + 1) % 256 - 1
      else (s.filledRows + 1) % 256) ≤ Pages - 1
    simp only [Pages]
    rw [uint8_fill_advance s.filledRows hfil7]
    omega
  · show bufWrite s.buf
      (if Pages ≤ (s.row + 1) % 256 then 0 else (s.row + 1) % 256) 0 0 ((s.row + 1) % Pages) 0 = 0
    simp only [Pages]
    rw [uint8_row_advance s.row hrow8]
    simp [bufWrite]
/-- Witness for C4 at a concrete state. -/
theorem lf_spec_witness :
    ((7 : Nat) < Pages ∧ (7 : Nat) ≤ Pages - 1) ∧
      ((Console.mk (fun _ _ => 9) 7 5 20 7 true).lf.col = 0 ∧
        (Console.mk (fun _ _ => 9) 7 5 20 7 true).lf.rowWidth = 0 ∧
        (Console.mk (fun _ _ => 9) 7 5 20 7 true).lf.row = (7 + 1) % Pages ∧
        (Console.mk (fun _ _ => 9) 7 5 20 7 true).lf.filledRows = min (7 + 1) (Pages - 1) ∧
        (Console.mk (fun _ _ => 9) 7 5 20 7 true).lf.filledRows ≤ Pages - 1 ∧
        (Console.mk (fun _ _ => 9) 7 5 20 7 true).lf.buf ((7 + 1) % Pages) 0 = 0) :=
  ⟨by decide, lf_spec (Console.mk (fun _ _ => 9) 7 5 20 7 true) (by decide) (by decide)⟩

/-- Counterexample for C7 as literally stated: writing the control character
`7` (BEL) to a clean console leaves the buffers and counters alone but sets
the dirty flag, so the state is not unchanged. -/
theorem write_control_cex :
    ((7 : Nat) < 32 ∧ (7 : Nat) ≠ 10 ∧ (7 : Nat) ≠ 13) ∧
      Console.start.dirty = false ∧ (Console.start.write gw3 7).dirty = true := by
  constructor
  · exact ⟨by decide, by decide, by decide⟩
  · exact ⟨rfl, rfl⟩

/-- C7 (amended): writing a control character other than line feed and
carriage return changes nothing except that the dirty flag is set to `true`:
row buffers, row index, column index, row width and filled-row counter are
all unchanged. -/
theorem write_control_ignored (gw : Nat → Nat) (s : Console) (ch : Nat)
    (h1 : ch < 32) (h2 : ch ≠ 10) (h3 : ch ≠ 13) :
    s.write gw ch = { s with dirty := true } := by
  have hm : ch % 256 = ch := Nat.mod_eq_of_lt (by omega)
  have hsv : ¬ (32 ≤ signedVal ch) := by
    simp only [signedVal, hm, if_pos (show ch < 128 by omega)]
    omega
  simp [Console.write, hsv, hm, h2, h3]

/-- Witness for C7 (amended) at a concrete state and character. -/
theorem write_control_ignored_witness :
    ((7 : Nat) < 32 ∧ (7 : Nat) ≠ 10 ∧ (7 : Nat) ≠ 13) ∧
      (Console.mk (fun _ _ => 9) 2 3 9 4 false).write gw3 7 =
        { Console.mk (fun _ _ => 9) 2 3 9 4 false with dirty := true } :=
  ⟨⟨by decide, by decide, by decide⟩,
    write_control_ignored gw3 (Console.mk (fun _ _ => 9) 2 3 9 4 false) 7
      (by decide) (by decide) (by decide)⟩

/-- C3: writing a printable character performs exactly one automatic line feed
(the row index advances by one modulo `Pages` and the character lands at slot
0 of the new row) exactly when appending would exceed `MaxCols` characters or
reach `Cols` pixels of accumulated row width; otherwise the character lands at
the current column and no line feed happens.  Moreover, in the spec's
scenario (40 characters of 3 px width on a fresh console) the first 32
characters fill row 0, exactly one line feed happens, and the remaining 8
characters start row 1. -/
theorem write_printable_lf_iff (gw : Nat → Nat) (s : Console) (ch : Nat)
    (hch1 : 32 ≤ ch) (hch2 : ch < 128) (hrow : s.row < Pages) (hcol : s.col ≤ MaxCols) :
    ((MaxCols ≤ s.col ∨ Cols ≤ s.rowWidth + gw ch % 256) →
        (s.write gw ch).row = (s.row + 1) % Pages ∧ (s.write gw ch).col = 1 ∧
        (s.write gw ch).buf ((s.row + 1) % Pages) 0 = ch) ∧
    ((¬ (MaxCols ≤ s.col ∨ Cols ≤ s.rowWidth + gw ch % 256)) →
        (s.write gw ch).row = s.row ∧ (s.write gw ch).col = s.col + 1 ∧
        (s.write gw ch).buf s.row s.col = ch) ∧
    ((Console.runW gw3 (List.replicate 40 65)).rowText 0 = List.replicate 32 65 ∧
      (Console.runW gw3 (List.replicate 40 65)).rowText 1 = List.replicate 8 65 ∧
      (Console.runW gw3 (List.replicate 40 65)).row = 1 ∧
      (Console.runW gw3 (List.replicate 40 65)).filledRows = 1 ∧
      (Console.runW gw3 (List.replicate 40 65)).col = 8) := by
  have hm : ch % 256 = ch := Nat.mod_eq_of_lt (by omega)
  have hsv : 32 ≤ signedVal ch := by
    simp only [signedVal, hm, if_pos (show ch < 128 by omega)]
    omega
  have hrow8 : s.row < 8 := by simpa [Pages] using hrow
  refine ⟨?_, ?_, by decide⟩
  · intro hcond
    simp only [Console.write, Console.appendChar, if_pos hsv, if_pos hcond, Console.lf]
    refine ⟨?_, ?_, ?_⟩
    · simp only [Pages]
      exact uint8_row_advance s.row hrow8
    · trivial
    · simp only [Pages]
      rw [uint8_row_advance s.row hrow8]
      simp [bufWrite, hm]
  · intro hcond
    have hclt : s.col < MaxCols := by
      rcases Nat.lt_or_ge s.col MaxCols with h | h
      · exact h
      · exact absurd (Or.inl h) hcond
    have hc1 : (s.col + 1) % 256 = s.col + 1 := by
      simp only [MaxCols, Cols] at hclt
      omega
    simp only [Console.write, Console.appendChar, if_pos hsv, if_neg hcond, hc1]
    refine ⟨?_, ?_, ?_⟩
    · trivial
    · trivial
    · simp [bufWrite, hm]

/-- Witness for C3 on a fresh console and the character `A`. -/
theorem write_printable_lf_iff_witness :
    ((32 : Nat) ≤ 65 ∧ (65 : Nat) < 128 ∧ Console.start.row < Pages ∧
        Console.start.col ≤ MaxCols ∧
        ¬ (MaxCols ≤ Console.start.col ∨ Cols ≤ Console.start.rowWidth + gw3 65 % 256)) ∧
      ((Console.start.write gw3 65).row = Console.start.row ∧
        (Console.start.write gw3 65).col = Console.start.col + 1 ∧
        (Console.start.write gw3 65).buf Console.start.row Console.start.col = 65) :=
  ⟨⟨by decide, by decide, by decide, by decide, by decide⟩,
    (write_printable_lf_iff gw3 Console.start 65 (by decide) (by decide)
        (by decide) (by decide)).2.1 (by decide)⟩

/-- C1 (code bug): `_draw` blanks only columns `width .. Cols - width` (the
call `fillPage(width, Cols - width, i)`), not the whole remainder
`width .. Cols - 1` its own comment and the spec describe.  Concretely, after
drawing a 31-character row (124 px), a carriage return and a 2-character row
(8 px) redraw leaves the old glyph byte `255` at column 121 of page 0, even
though `8 ≤ 121 < Cols` means the claim requires it blank.  The width drawn
on the second pass is indeed 8. -/
theorem draw_blank_range_bug :
    (sysRun fontA opsC1).2 0 121 = 255 ∧ (sysRun fontA opsC1).2 0 121 ≠ 0 ∧
      (8 : Nat) ≤ 121 ∧ (121 : Nat) < Cols ∧
      (drawText fontA 0 ((sysRun fontA opsC1).1.rowText 0) (fun _ _ => 0)).2 = 8 := by
  refine ⟨by decide, by decide, by decide, by decide, by decide⟩

/-- The initial console state satisfies the C9 invariant. -/
theorem inv9_start : Inv9 Console.start := by
  refine ⟨by simp [Console.start, Pages], by simp [Console.start], by simp [Console.start],
    by simp [Console.start, Pages], ?_⟩
  intro r _
  exact ⟨0, Nat.zero_le _, rfl⟩

/-- `_lf` preserves the C9 invariant. -/
theorem inv9_lf (s : Console) (h : Inv9 s) : Inv9 s.lf := by
  obtain ⟨hrow, hcol, hrf, hfil, hbuf⟩ := h
  have hrow8 : s.row < 8 := by simpa [Pages] using hrow
  have hfil7 : s.filledRows ≤ 7 := by simpa [Pages] using hfil
  refine ⟨?_, Nat.zero_le _, ?_, ?_, ?_⟩
  · show (if Pages ≤ (s.row + 1) % 256 then 0 else (s.row + 1) % 256) < Pages
    simp only [Pages]
    rw [uint8_row_advance s.row hrow8]
    omega
  · show (if Pages ≤ (s.row + 1) % 256 then 0 else (s.row + 1) % 256) ≤
      (if Pages ≤ (s.filledRows + 1) % 256 then (s.filledRows + 1) % 256 - 1
        else (s.filledRows + 1) % 256)
    simp only [Pages]
    rw [uint8_row_advance s.row hrow8, uint8_fill_advance s.filledRows hfil7]
    omega
  · show (if Pages ≤ (s.filledRows + 1) % 256 then (s.filledRows + 1) % 256 - 1
      else (s.filledRows + 1) % 256) ≤ Pages - 1
    simp only [Pages]
    rw [uint8_fill_advance s.filledRows hfil7]
    omega
  · intro r hr
    obtain ⟨k, hk, hbk⟩ := hbuf r hr
    refine ⟨k, hk, ?_⟩
    show bufWrite s.buf _ 0 0 r k = 0
    simp only [bufWrite]
    by_cases hc : r = (if Pages ≤ (s.row + 1) % 256 then 0 else (s.row + 1) % 256) ∧ k = 0
    · rw [if_pos hc]
    · rw [if_neg hc]
      exact hbk

/-- `_clear` establishes the C9 invariant from any state. -/
theorem inv9_clear (s : Console) : Inv9 s.clear := by
  refine ⟨by simp [Console.clear, Pages], by simp [Console.clear], by simp [Console.clear],
    by simp [Console.clear, Pages], ?_⟩
  intro r hr
  refine ⟨0, Nat.zero_le _, ?_⟩
  show (if r < Pages ∧ (0 : Nat) = 0 then 0 else s.buf r 0) = 0
  rw [if_pos ⟨hr, rfl⟩]

/-- `_write` preserves the C9 invariant. -/
theorem inv9_write (gw : Nat → Nat) (s : Console) (ch : Nat) (h : Inv9 s) :
    Inv9 (s.write gw ch) := by
  obtain ⟨hrow, hcol, hrf, hfil, hbuf⟩ := h
  by_cases hsv : 32 ≤ signedVal ch
  · have hs1 : Inv9 (if MaxCols ≤ s.col ∨ Cols ≤ s.rowWidth + gw ch % 256 then s.lf else s) ∧
        (if MaxCols ≤ s.col ∨ Cols ≤ s.rowWidth + gw ch % 256 then s.lf else s).col <
          MaxCols := by
      by_cases hcond : MaxCols ≤ s.col ∨ Cols ≤ s.rowWidth + gw ch % 256
      · rw [if_pos hcond]
        refine ⟨inv9_lf s ⟨hrow, hcol, hrf, hfil, hbuf⟩, ?_⟩
        show (0 : Nat) < MaxCols
        simp [MaxCols, Cols]
      · rw [if_neg hcond]
        refine ⟨⟨hrow, hcol, hrf, hfil, hbuf⟩, ?_⟩
        rcases Nat.lt_or_ge s.col MaxCols with hlt | hge
        · exact hlt
        · exact absurd (Or.inl hge) hcond
    obtain ⟨⟨h1row, h1col, h1rf, h1fil, h1buf⟩, h1lt⟩ := hs1
    have h1lt32 : (if MaxCols ≤ s.col ∨ Cols ≤ s.rowWidth + gw ch % 256 then s.lf
        else s).col < 32 := by simpa [MaxCols, Cols] using h1lt
    simp only [Console.write, Console.appendChar, if_pos hsv]
    have hc1 : ((if MaxCols ≤ s.col ∨ Cols ≤ s.rowWidth + gw ch % 256 then s.lf
        else s).col + 1) % 256 =
        (if MaxCols ≤ s.col ∨ Cols ≤ s.rowWidth + gw ch % 256 then s.lf else s).col + 1 :=
      Nat.mod_eq_of_lt (by omega)
    refine ⟨h1row, ?_, h1rf, h1fil, ?_⟩
    · show ((if MaxCols ≤ s.col ∨ Cols ≤ s.rowWidth + gw ch % 256 then s.lf
        else s).col + 1) % 256 ≤ MaxCols
      rw [hc1]
      simp only [MaxCols, Cols] at h1lt32 ⊢
      omega
    · intro r hr
      by_cases hre : r = (if MaxCols ≤ s.col ∨ Cols ≤ s.rowWidth + gw ch % 256 then s.lf
          else s).row
      · refine ⟨(if MaxCols ≤ s.col ∨ Cols ≤ s.rowWidth + gw ch % 256 then s.lf
            else s).col + 1, by simp only [MaxCols, Cols] at h1lt32 ⊢; omega, ?_⟩
        show bufWrite (bufWrite _ _ _ _) _ _ 0 r _ = 0
        simp only [bufWrite, hc1]
        rw [if_pos ⟨hre, by trivial⟩]
      · obtain ⟨k, hk, hbk⟩ := h1buf r hr
        refine ⟨k, hk, ?_⟩
        show bufWrite (bufWrite _ _ _ _) _ _ 0 r k = 0
        simp only [bufWrite, hc1]
        rw [if_neg (fun hc => hre hc.1), if_neg (fun hc => hre hc.1)]
        exact hbk
  · by_cases h10 : ch % 256 = 10
    · simp only [Console.write, if_neg hsv, if_pos h10]
      exact inv9_lf s ⟨hrow, hcol, hrf, hfil, hbuf⟩
    · by_cases h13 : ch % 256 = 13
      · simp only [Console.write, if_neg hsv, if_neg h10, if_pos h13]
        exact ⟨hrow, Nat.zero_le _, hrf, hfil, hbuf⟩
      · simp only [Console.write, if_neg hsv, if_neg h10, if_neg h13]
        exact ⟨hrow, hcol, hrf, hfil, hbuf⟩

/-- Every console operation preserves the C9 invariant. -/
theorem inv9_step (gw : Nat → Nat) (s : Console) (op : Op) (h : Inv9 s) :
    Inv9 (s.step gw op) := by
  match op with
  | .wr ch => exact inv9_write gw s ch h
  | .cl => exact inv9_clear s
  | .dr => exact h

/-- The C9 invariant holds after any operation sequence from any invariant
state. -/
theorem inv9_run_aux (gw : Nat → Nat) :
    ∀ (ops : List Op) (s : Console), Inv9 s → Inv9 (ops.foldl (Console.step gw) s) := by
  intro ops
  induction ops with
  | nil => intro s h; exact h
  | cons op rest ih => intro s h; exact ih (s.step gw op) (inv9_step gw s op h)

/-- The row index computed by `_draw` lands in `[0, Pages)` after the single
conditional `+ Pages` correction. -/
theorem drawIndex_bounds (s : Console) (hrow : s.row < Pages) (hrf : s.row ≤ s.filledRows)
    (hfil : s.filledRows ≤ Pages - 1) (i : Nat) (hi : i < Pages) :
    0 ≤ s.drawIndex i ∧ s.drawIndex i < (Pages : Int) := by
  simp only [Pages] at hrow hfil hi
  simp only [Console.drawIndex, int8ofInt, Pages]
  constructor
  · split <;> omega
  · split <;> omega

/-- C9: in every console state reachable by `write`/`clear`/`draw` calls, each
row buffer has its terminator within the `MaxCols + 1` slots, the counters
satisfy `row < Pages`, `col ≤ MaxCols`, `row ≤ filledRows ≤ Pages - 1`, and
every row index computed in `_draw` lands in `[0, Pages)`. -/
theorem console_reachable_invariant (gw : Nat → Nat) (ops : List Op) :
    (Console.run gw ops).row < Pages ∧ (Console.run gw ops).col ≤ MaxCols ∧
      (Console.run gw ops).row ≤ (Console.run gw ops).filledRows ∧
      (Console.run gw ops).filledRows ≤ Pages - 1 ∧
      (∀ r, r < Pages → ∃ k, k ≤ MaxCols ∧ (Console.run gw ops).buf r k = 0) ∧
      (∀ i, i < Pages → 0 ≤ (Console.run gw ops).drawIndex i ∧
        (Console.run gw ops).drawIndex i < (Pages : Int)) := by
  have h : Inv9 (Console.run gw ops) := inv9_run_aux gw ops Console.start inv9_start
  obtain ⟨h1, h2, h3, h4, h5⟩ := h
  exact ⟨h1, h2, h3, h4, h5, fun i hi => drawIndex_bounds _ h1 h3 h4 i hi⟩

/-- Witness for C9 at a concrete operation sequence. -/
theorem console_reachable_invariant_witness :
    (Console.run gw3 [Op.wr 65, Op.wr 10, Op.cl, Op.wr 66, Op.dr, Op.wr 10]).row < Pages ∧
      (∃ k, k ≤ MaxCols ∧
        (Console.run gw3 [Op.wr 65, Op.wr 10, Op.cl, Op.wr 66, Op.dr, Op.wr 10]).buf 0 k = 0) ∧
      0 ≤ (Console.run gw3 [Op.wr 65, Op.wr 10, Op.cl, Op.wr 66, Op.dr, Op.wr 10]).drawIndex 5 ∧
      (Console.run gw3 [Op.wr 65, Op.wr 10, Op.cl, Op.wr 66, Op.dr, Op.wr 10]).drawIndex 5 <
        (Pages : Int) :=
  ⟨(console_reachable_invariant gw3 [Op.wr 65, Op.wr 10, Op.cl, Op.wr 66, Op.dr, Op.wr 10]).1,
    (console_reachable_invariant gw3
        [Op.wr 65, Op.wr 10, Op.cl, Op.wr 66, Op.dr, Op.wr 10]).2.2.2.2.1 0 (by decide),
    ((console_reachable_invariant gw3
        [Op.wr 65, Op.wr 10, Op.cl, Op.wr 66, Op.dr, Op.wr 10]).2.2.2.2.2 5 (by decide)).1,
    ((console_reachable_invariant gw3
        [Op.wr 65, Op.wr 10, Op.cl, Op.wr 66, Op.dr, Op.wr 10]).2.2.2.2.2 5 (by decide)).2⟩

/-- `getD` of a `take` below the cut agrees with the original list. -/
theorem getD_take_lt : ∀ (l : List Nat) (c k : Nat), k < c →
    (l.take c).getD k 0 = l.getD k 0 := by
  intro l
  induction l with
  | nil => intro c k _; simp
  | cons a t ih =>
      intro c k hk
      obtain ⟨c1, rfl⟩ : ∃ c1, c = c1 + 1 := ⟨c - 1, by omega⟩
      match k with
      | 0 => simp
      | k + 1 =>
          simp only [List.take_succ_cons, List.getD_cons_succ]
          exact ih c1 k (by omega)

/-- `getD` of an append below the left length. -/
theorem getD_append_lt : ∀ (t l2 : List Nat) (k : Nat), k < t.length →
    (t ++ l2).getD k 0 = t.getD k 0 := by
  intro t
  induction t with
  | nil => intro l2 k hk; simp at hk
  | cons a t1 ih =>
      intro l2 k hk
      match k with
      | 0 => simp
      | k + 1 =>
          simp only [List.cons_append, List.getD_cons_succ]
          exact ih l2 k (by simpa using Nat.lt_of_succ_lt_succ hk)

/-- `getD` of an append at exactly the left length picks the added element. -/
theorem getD_append_length : ∀ (t : List Nat) (x : Nat),
    (t ++ [x]).getD t.length 0 = x := by
  intro t
  induction t with
  | nil => intro x; rfl
  | cons a t1 ih => intro x; simpa using ih x

/-- `getD` of a reversed list. -/
theorem getD_reverse (l : List (List Nat)) (j : Nat) (h : j < l.length) :
    l.reverse.getD j [] = l.getD (l.length - 1 - j) [] := by
  rw [List.getD_eq_getElem?_getD, List.getD_eq_getElem?_getD, List.getElem?_reverse h]

/-- Characterization of the C-string reader `readRow`. -/
theorem readRow_spec : ∀ (t : List Nat) (f : Nat → Nat) (k fuel : Nat),
    t.length < fuel →
    (∀ i, i < t.length → f (k + i) = t.getD i 0 ∧ t.getD i 0 ≠ 0) →
    f (k + t.length) = 0 →
    readRow f k fuel = t := by
  intro t
  induction t with
  | nil =>
      intro f k fuel hlen _ hterm
      obtain ⟨fu, rfl⟩ : ∃ fu, fuel = fu + 1 := ⟨fuel - 1, by omega⟩
      show readRow f k (fu + 1) = []
      simp only [readRow]
      rw [if_pos (by simpa using hterm)]
  | cons a t1 ih =>
      intro f k fuel hlen hel hterm
      obtain ⟨fu, rfl⟩ : ∃ fu, fuel = fu + 1 := ⟨fuel - 1, by omega⟩
      have h0 := hel 0 (by simp)
      have hfk : f k = a := by simpa using h0.1
      have ha : a ≠ 0 := by simpa using h0.2
      show readRow f k (fu + 1) = a :: t1
      simp only [readRow]
      rw [if_neg (by rw [hfk]; exact ha), hfk]
      congr 1
      refine ih f (k + 1) fu (by simpa using hlen) ?_ ?_
      · intro i hi
        have := hel (i + 1) (by simpa using Nat.succ_lt_succ hi)
        rw [show k + 1 + i = k + (i + 1) by omega]
        simpa using this
      · rw [show k + 1 + t1.length = k + (a :: t1).length by simp; omega]
        exact hterm

/-- A buffer row satisfying `rowOk` reads back as exactly its text. -/
theorem rowOk_rowText (s : Console) (r : Nat) (t : List Nat) (h : rowOk s r t) :
    s.rowText r = t := by
  obtain ⟨hlen, hel, hterm⟩ := h
  refine readRow_spec t (s.buf r) 0 (MaxCols + 1) ?_ ?_ ?_
  · simp only [MaxCols, Cols] at hlen ⊢
    omega
  · intro i hi
    simpa using hel i hi
  · simpa using hterm

/-- The reversed row history starts with the current row. -/
theorem ghost_hist_reverse (g : Ghost) : g.hist.reverse = g.cur :: g.prevRows.reverse := by
  simp [Ghost.hist]

/-- The row history is never empty. -/
theorem ghost_hist_length_pos (g : Ghost) : 0 < g.hist.length := by
  simp [Ghost.hist]

/-- Under `HistInv` the row index is in range. -/
theorem histInv_row_lt (s : Console) (g : Ghost) (h : HistInv s g) : s.row < 8 := by
  rw [h.hrow]
  simp only [Pages]
  omega

/-- Under `HistInv` the filled-row counter is at most `Pages - 1`. -/
theorem histInv_fil_le (s : Console) (g : Ghost) (h : HistInv s g) : s.filledRows ≤ 7 := by
  rw [h.hfil]
  simp only [Pages]
  omega

/-- `winIdx 0` is the current row. -/
theorem winIdx_zero (s : Console) (h : s.row < 8) : winIdx s 0 = s.row := by
  simp only [winIdx, Pages]
  omega

/-- `winIdx j` for `1 ≤ j ≤ 7` differs from the current row. -/
theorem winIdx_ne_row (s : Console) (h : s.row < 8) (j : Nat) (h1 : 1 ≤ j) (h7 : j ≤ 7) :
    winIdx s j ≠ s.row := by
  simp only [winIdx, Pages]
  omega

/-- After `_lf` the buffer is unchanged away from the new current row. -/
theorem lf_buf_other (s : Console) (r k : Nat) (hne : r ≠ s.lf.row) :
    s.lf.buf r k = s.buf r k := by
  show bufWrite s.buf s.lf.row 0 0 r k = s.buf r k
  simp only [bufWrite]
  rw [if_neg (fun hc => hne hc.1)]

/-- A printable append changes the buffer only on the current row. -/
theorem append_buf_other (s : Console) (v c1 r k : Nat) (hne : r ≠ s.row) :
    bufWrite (bufWrite s.buf s.row s.col v) s.row c1 0 r k = s.buf r k := by
  simp only [bufWrite]
  rw [if_neg (fun hc => hne hc.1), if_neg (fun hc => hne hc.1)]

/-- The initial console and ghost satisfy the simulation invariant. -/
theorem histInv_start : HistInv Console.start Ghost.start := by
  refine ⟨by simp [Console.start, Ghost.start, Ghost.hist, Pages],
    by simp [Console.start, Ghost.start, Ghost.hist, Pages],
    rfl, rfl, Nat.le_refl 0, ?_, ?_⟩
  · intro j hj
    have hj0 : j = 0 := by
      have : (Console.start).filledRows = 0 := rfl
      omega
    subst hj0
    refine ⟨by simp [Ghost.start, Ghost.hist, MaxCols, Cols], ?_, rfl⟩
    intro k hk
    simp [Ghost.start, Ghost.hist] at hk
  · intro j _ _
    rfl

/-- `_lf` preserves the simulation invariant against the ghost line feed. -/
theorem histInv_lf (s : Console) (g : Ghost) (h : HistInv s g) : HistInv s.lf g.lf := by
  have hrow8 : s.row < 8 := histInv_row_lt s g h
  have hfil7 : s.filledRows ≤ 7 := histInv_fil_le s g h
  have hL : 1 ≤ g.hist.length := ghost_hist_length_pos g
  have hrowlf : s.lf.row = (s.row + 1) % 8 := by
    show (if Pages ≤ (s.row + 1) % 256 then 0 else (s.row + 1) % 256) = _
    simp only [Pages]
    exact uint8_row_advance s.row hrow8
  have hfillf : s.lf.filledRows = min (s.filledRows + 1) 7 := by
    show (if Pages ≤ (s.filledRows + 1) % 256 then (s.filledRows + 1) % 256 - 1
      else (s.filledRows + 1) % 256) = _
    simp only [Pages]
    exact uint8_fill_advance s.filledRows hfil7
  have hlfhistlen : g.lf.hist.length = g.hist.length + 1 := by
    simp [Ghost.lf, Ghost.hist]
  have hlfrev : g.lf.hist.reverse = [] :: g.hist.reverse := by
    simp [Ghost.lf, Ghost.hist]
  refine ⟨?_, ?_, rfl, rfl, Nat.le_refl 0, ?_, ?_⟩
  · rw [hrowlf, hlfhistlen, h.hrow]
    simp only [Pages]
    omega
  · rw [hfillf, hlfhistlen, h.hfil]
    simp only [Pages]
    omega
  · intro j hj
    rw [hfillf] at hj
    by_cases hj0 : j = 0
    · subst hj0
      have hwz : winIdx s.lf 0 = s.lf.row := by
        refine winIdx_zero s.lf ?_
        rw [hrowlf]
        omega
      rw [hwz, hlfrev]
      simp only [List.getD_cons_zero]
      refine ⟨by simp [MaxCols, Cols], ?_, ?_⟩
      · intro k hk
        simp at hk
      · show s.lf.buf s.lf.row 0 = 0
        show bufWrite s.buf s.lf.row 0 0 s.lf.row 0 = 0
        simp [bufWrite]
    · have hj1 : 1 ≤ j := by omega
      have hj7 : j ≤ 7 := by omega
      have hwj : winIdx s.lf j = winIdx s (j - 1) := by
        simp only [winIdx, hrowlf, Pages]
        omega
      have hne : winIdx s (j - 1) ≠ s.lf.row := by
        rw [hrowlf]
        simp only [winIdx, Pages]
        omega
      rw [hwj, hlfrev]
      have hgd : (([] : List Nat) :: g.hist.reverse).getD j [] =
          g.hist.reverse.getD (j - 1) [] := by
        obtain ⟨j1, rfl⟩ : ∃ j1, j = j1 + 1 := ⟨j - 1, by omega⟩
        simp
      rw [hgd]
      obtain ⟨hl1, hl2, hl3⟩ := h.hwin (j - 1) (by omega)
      refine ⟨hl1, ?_, ?_⟩
      · intro k hk
        rw [lf_buf_other s _ k hne]
        exact hl2 k hk
      · rw [lf_buf_other s _ _ hne]
        exact hl3
  · intro j hjlow hjhigh
    rw [hfillf] at hjlow
    simp only [Pages] at hjhigh
    have hj1 : 1 ≤ j := by omega
    have hwj : winIdx s.lf j = winIdx s (j - 1) := by
      simp only [winIdx, hrowlf, Pages]
      omega
    have hne : winIdx s (j - 1) ≠ s.lf.row := by
      rw [hrowlf]
      simp only [winIdx, Pages]
      omega
    rw [hwj, lf_buf_other s _ 0 hne]
    exact h.hemp (j - 1) (by omega) (by simp only [Pages]; omega)

/-- `cr()` preserves the simulation invariant against the ghost cursor
reset. -/
theorem histInv_cr (s : Console) (g : Ghost) (h : HistInv s g) :
    HistInv s.cr { g with c := 0, w := 0 } := by
  exact ⟨h.hrow, h.hfil, rfl, rfl, Nat.zero_le _, h.hwin, h.hemp⟩

/-- `bufWrite` read back at the written cell. -/
theorem bufWrite_same (f : Nat → Nat → Nat) (r c v : Nat) : bufWrite f r c v r c = v := by
  simp [bufWrite]

/-- `bufWrite` read back at a different column. -/
theorem bufWrite_ne_col (f : Nat → Nat → Nat) (r c v r1 c1 : Nat) (h : c1 ≠ c) :
    bufWrite f r c v r1 c1 = f r1 c1 := by
  simp only [bufWrite]
  rw [if_neg (fun hc => h hc.2)]

/-- Appending a printable character (after any guard line feed has already
happened, so `c < MaxCols`) preserves the simulation invariant. -/
theorem histInv_append (s : Console) (g : Ghost) (ch width : Nat) (h : HistInv s g)
    (hclt : g.c < 32) (hch1 : 32 ≤ ch % 256) (hch2 : ch % 256 < 128) :
    HistInv (s.appendChar ch width) (g.app ch width) := by
  have hrow8 : s.row < 8 := histInv_row_lt s g h
  have hscol : s.col = g.c := h.hcol
  have hcle : g.c ≤ g.cur.length := h.hcur
  have hc1 : (s.col + 1) % 256 = s.col + 1 := Nat.mod_eq_of_lt (by omega)
  have htake : (g.cur.take g.c).length = g.c := by
    rw [List.length_take]
    omega
  have hcur0 : rowOk s s.row g.cur := by
    have := h.hwin 0 (Nat.zero_le _)
    rw [winIdx_zero s hrow8, ghost_hist_reverse] at this
    simpa using this
  have hghist : (g.app ch width).hist.length = g.hist.length := by
    simp [Ghost.app, Ghost.hist]
  have hgrev : (g.app ch width).hist.reverse =
      (g.cur.take g.c ++ [ch % 256]) :: g.prevRows.reverse :=
    ghost_hist_reverse (g.app ch width)
  have hgdapp : (g.cur.take g.c ++ [ch % 256]).getD g.c 0 = ch % 256 := by
    have := getD_append_length (g.cur.take g.c) (ch % 256)
    rwa [htake] at this
  refine ⟨?_, ?_, ?_, ?_, ?_, ?_, ?_⟩
  · rw [hghist]
    exact h.hrow
  · rw [hghist]
    exact h.hfil
  · show (s.col + 1) % 256 = g.c + 1
    rw [hc1, hscol]
  · show (s.rowWidth + width + 1) % 256 = (g.w + width + 1) % 256
    rw [h.hwid]
  · show g.c + 1 ≤ (g.cur.take g.c ++ [ch % 256]).length
    simp [htake]
  · intro j hj
    by_cases hj0 : j = 0
    · subst hj0
      have hwz : winIdx (s.appendChar ch width) 0 = s.row := winIdx_zero _ hrow8
      rw [hwz, hgrev]
      simp only [List.getD_cons_zero]
      refine ⟨?_, ?_, ?_⟩
      · show (g.cur.take g.c ++ [ch % 256]).length ≤ MaxCols
        simp only [List.length_append, htake, List.length_singleton, MaxCols, Cols]
        omega
      · intro k hk
        have hklt : k < g.c + 1 := by
          simpa [htake] using hk
        by_cases hkc : k = g.c
        · subst hkc
          constructor
          · show bufWrite (bufWrite s.buf s.row s.col (ch % 256)) s.row
              ((s.col + 1) % 256) 0 s.row g.c = _
            rw [bufWrite_ne_col _ _ _ _ _ _ (by rw [hc1]; omega)]
            have hb : bufWrite s.buf s.row s.col (ch % 256) s.row g.c = ch % 256 := by
              rw [show g.c = s.col from hscol.symm]
              exact bufWrite_same _ _ _ _
            rw [hb, hgdapp]
          · rw [hgdapp]
            omega
        · have hklt2 : k < g.c := by omega
          have hgd : (g.cur.take g.c ++ [ch % 256]).getD k 0 = g.cur.getD k 0 := by
            rw [getD_append_lt _ _ k (by rw [htake]; exact hklt2)]
            exact getD_take_lt g.cur g.c k hklt2
          have hold := hcur0.2.1 k (by omega)
          constructor
          · show bufWrite (bufWrite s.buf s.row s.col (ch % 256)) s.row
              ((s.col + 1) % 256) 0 s.row k = _
            rw [bufWrite_ne_col _ _ _ _ _ _ (by rw [hc1]; omega),
              bufWrite_ne_col _ _ _ _ _ _ (by omega)]
            rw [hgd]
            exact hold.1
          · rw [hgd]
            exact hold.2
      · show bufWrite (bufWrite s.buf s.row s.col (ch % 256)) s.row
          ((s.col + 1) % 256) 0 s.row ((g.cur.take g.c ++ [ch % 256]).length) = 0
        have hlen : (g.cur.take g.c ++ [ch % 256]).length = (s.col + 1) % 256 := by
          rw [hc1]
          simp only [List.length_append, htake, List.length_singleton]
          omega
        rw [hlen]
        exact bufWrite_same _ _ _ _
    · have hj1 : 1 ≤ j := by omega
      have hj7 : j ≤ 7 := by
        have h1 := histInv_fil_le s g h
        have h2 : (s.appendChar ch width).filledRows = s.filledRows := rfl
        omega
      have hne : winIdx s j ≠ s.row := winIdx_ne_row s hrow8 j hj1 hj7
      have hwj : winIdx (s.appendChar ch width) j = winIdx s j := rfl
      rw [hwj, hgrev]
      have hgd : ((g.cur.take g.c ++ [ch % 256]) :: g.prevRows.reverse).getD j [] =
          g.hist.reverse.getD j [] := by
        obtain ⟨j1, rfl⟩ : ∃ j1, j = j1 + 1 := ⟨j - 1, by omega⟩
        rw [ghost_hist_reverse]
        simp
      rw [hgd]
      obtain ⟨hl1, hl2, hl3⟩ := h.hwin j hj
      refine ⟨hl1, ?_, ?_⟩
      · intro k hk
        rw [show (s.appendChar ch width).buf (winIdx s j) k = s.buf (winIdx s j) k from
          append_buf_other s (ch % 256) _ _ k hne]
        exact hl2 k hk
      · rw [show (s.appendChar ch width).buf (winIdx s j) _ = s.buf (winIdx s j) _ from
          append_buf_other s (ch % 256) _ _ _ hne]
        exact hl3
  · intro j hjlow hjhigh
    simp only [Pages] at hjhigh
    have hfeq : (s.appendChar ch width).filledRows = s.filledRows := rfl
    rw [hfeq] at hjlow
    have hne : winIdx s j ≠ s.row := by
      refine winIdx_ne_row s hrow8 j ?_ (by omega)
      omega
    rw [show winIdx (s.appendChar ch width) j = winIdx s j from rfl]
    rw [show (s.appendChar ch width).buf (winIdx s j) 0 = s.buf (winIdx s j) 0 from
      append_buf_other s (ch % 256) _ _ 0 hne]
    exact h.hemp j hjlow (by simp only [Pages]; omega)

/-- A printable byte has signed value at least `' '` exactly when its low
7 bits make it an ASCII printable. -/
theorem signedVal_printable (ch : Nat) (h : 32 ≤ signedVal ch) :
    32 ≤ ch % 256 ∧ ch % 256 < 128 := by
  by_cases hlt : ch % 256 < 128
  · rw [signedVal, if_pos hlt] at h
    exact ⟨by exact_mod_cast h, hlt⟩
  · rw [signedVal, if_neg hlt] at h
    exfalso
    have hub : ch % 256 < 256 := Nat.mod_lt _ (by omega)
    omega

/-- `_write` preserves the simulation invariant against the ghost mirror. -/
theorem histInv_write (gw : Nat → Nat) (s : Console) (g : Ghost) (ch : Nat)
    (h : HistInv s g) : HistInv (s.write gw ch) (g.wr gw ch) := by
  by_cases hsv : 32 ≤ signedVal ch
  · have hch := signedVal_printable ch hsv
    have hguard : (MaxCols ≤ s.col ∨ Cols ≤ s.rowWidth + gw ch % 256) ↔
        (MaxCols ≤ g.c ∨ Cols ≤ g.w + gw ch % 256) := by
      rw [h.hcol, h.hwid]
    simp only [Console.write, Ghost.wr, if_pos hsv]
    by_cases hcond : MaxCols ≤ g.c ∨ Cols ≤ g.w + gw ch % 256
    · rw [if_pos (hguard.mpr hcond), if_pos hcond]
      refine histInv_append s.lf g.lf ch (gw ch % 256) (histInv_lf s g h) ?_ hch.1 hch.2
      show (0 : Nat) < 32
      omega
    · rw [if_neg (fun hc => hcond (hguard.mp hc)), if_neg hcond]
      have hclt : g.c < 32 := by
        rcases Nat.lt_or_ge g.c 32 with hlt | hge
        · exact hlt
        · exact absurd (Or.inl (by simpa [MaxCols, Cols] using hge)) hcond
      exact histInv_append s g ch (gw ch % 256) h hclt hch.1 hch.2
  · by_cases h10 : ch % 256 = 10
    · simp only [Console.write, Ghost.wr, if_neg hsv, if_pos h10]
      have h2 := histInv_lf s g h
      exact ⟨h2.hrow, h2.hfil, h2.hcol, h2.hwid, h2.hcur, h2.hwin, h2.hemp⟩
    · by_cases h13 : ch % 256 = 13
      · simp only [Console.write, Ghost.wr, if_neg hsv, if_neg h10, if_pos h13]
        have h2 := histInv_cr s g h
        exact ⟨h2.hrow, h2.hfil, h2.hcol, h2.hwid, h2.hcur, h2.hwin, h2.hemp⟩
      · simp only [Console.write, Ghost.wr, if_neg hsv, if_neg h10, if_neg h13]
        exact ⟨h.hrow, h.hfil, h.hcol, h.hwid, h.hcur, h.hwin, h.hemp⟩

/-- The simulation invariant holds along every write-only run. -/
theorem histInv_run (gw : Nat → Nat) :
    ∀ (cs : List Nat) (s : Console) (g : Ghost), HistInv s g →
      HistInv (cs.foldl (fun s ch => s.write gw ch) s) (cs.foldl (Ghost.wr gw) g) := by
  intro cs
  induction cs with
  | nil => intro s g h; exact h
  | cons ch rest ih =>
      intro s g h
      exact ih (s.write gw ch) (g.wr gw ch) (histInv_write gw s g ch h)

/-- The `_draw` row index equals the mathematical `(row - filled + i) mod
Pages`, and as a natural number it is `(row + Pages - filled + i) % Pages`. -/
theorem drawIndex_eq_emod (s : Console) (hrow : s.row < 8) (hrf : s.row ≤ s.filledRows)
    (hfil : s.filledRows ≤ 7) (i : Nat) (hi : i < 8) :
    s.drawIndex i = ((s.row : Int) - s.filledRows + i) % (Pages : Int) ∧
      (s.drawIndex i).toNat = (s.row + 8 - s.filledRows + i) % 8 := by
  simp only [Console.drawIndex, int8ofInt, Pages]
  constructor
  · split <;> omega
  · split <;> omega

/-- C2: for every write-only character sequence performing more than `Pages`
line feeds, the text drawn on physical page `i` by a subsequent `draw()` is
the buffer row with index `(row - filledRows + i) mod Pages`, and that text
is logical row `histLen - Pages + i` of the full row history: the most recent
`Pages` rows, in chronological top-to-bottom order, oldest on page 0. -/
theorem autoscroll_draw (gw : Nat → Nat) (cs : List Nat) (hn : Pages < numLf gw cs) :
    ∀ i, i < Pages →
      (Console.runW gw cs).drawIndex i =
        (((Console.runW gw cs).row : Int) - ((Console.runW gw cs).filledRows : Int) +
          (i : Int)) % (Pages : Int) ∧
      (Console.runW gw cs).rowText ((Console.runW gw cs).drawIndex i).toNat =
        (Ghost.run gw cs).hist.getD ((Ghost.run gw cs).hist.length - Pages + i) [] := by
  intro i hi
  simp only [Pages] at hn hi
  have h : HistInv (Console.runW gw cs) (Ghost.run gw cs) :=
    histInv_run gw cs Console.start Ghost.start histInv_start
  have hL : (Ghost.run gw cs).hist.length = numLf gw cs + 1 := by
    simp [numLf, Ghost.hist]
  have hrow8 : (Console.runW gw cs).row < 8 := histInv_row_lt _ _ h
  have hfil : (Console.runW gw cs).filledRows = 7 := by
    rw [h.hfil]
    simp only [Pages]
    omega
  have hdi := drawIndex_eq_emod (Console.runW gw cs) hrow8 (by omega) (by omega) i hi
  refine ⟨by simpa only [Pages] using hdi.1, ?_⟩
  have hj7 : 7 - i ≤ (Console.runW gw cs).filledRows := by omega
  have hrt := rowOk_rowText _ _ _ (h.hwin (7 - i) hj7)
  have htn : ((Console.runW gw cs).drawIndex i).toNat =
      winIdx (Console.runW gw cs) (7 - i) := by
    rw [hdi.2, hfil]
    simp only [winIdx, Pages]
    omega
  rw [htn, hrt]
  have hjlt : 7 - i < (Ghost.run gw cs).hist.length := by omega
  rw [getD_reverse _ _ hjlt]
  have hidx : (Ghost.run gw cs).hist.length - 1 - (7 - i) =
      (Ghost.run gw cs).hist.length - 8 + i := by omega
  rw [hidx]
  have hidx2 : (Ghost.run gw cs).hist.length - Pages + i =
      (Ghost.run gw cs).hist.length - 8 + i := by
    simp only [Pages]
  rw [hidx2]

/-- Witness for C2: ten one-character logical rows via nine explicit line
feeds; page 0 shows the third row. -/
theorem autoscroll_draw_witness :
    Pages < numLf gw3 [65, 10, 66, 10, 67, 10, 68, 10, 69, 10, 70, 10, 71, 10, 72, 10, 73, 10, 74] ∧
      (Console.runW gw3 [65, 10, 66, 10, 67, 10, 68, 10, 69, 10, 70, 10, 71, 10, 72, 10, 73, 10, 74]).rowText
          ((Console.runW gw3 [65, 10, 66, 10, 67, 10, 68, 10, 69, 10, 70, 10, 71, 10, 72, 10, 73, 10, 74]).drawIndex 0).toNat =
        (Ghost.run gw3 [65, 10, 66, 10, 67, 10, 68, 10, 69, 10, 70, 10, 71, 10, 72, 10, 73, 10, 74]).hist.getD
          ((Ghost.run gw3 [65, 10, 66, 10, 67, 10, 68, 10, 69, 10, 70, 10, 71, 10, 72, 10, 73, 10, 74]).hist.length - Pages + 0) [] :=
  ⟨by decide,
    (autoscroll_draw gw3 [65, 10, 66, 10, 67, 10, 68, 10, 69, 10, 70, 10, 71, 10, 72, 10, 73, 10, 74]
        (by decide) 0 (by decide)).2⟩

end A21

